import Mathlib

/-!
Verification of `game_logic/answers_gen.py`: a no-parentheses arithmetic
expression evaluator over exact rationals, and an enumerator that buckets
expressions by their integer value.

The Python code is embedded shallowly: `Fraction` becomes `ℚ`, a function
that may `raise ValueError` returns `Except String _`, and the
`Fraction | None` result becomes `Option ℚ` (with `none` marking the empty
input and division by zero).  Python dicts keep first-insertion key order,
so the bucket map becomes an association list.
-/

/-- The four binary operators `+,-,*,/` of the source's `OPS` tuple. -/
inductive Op : Type
  | add
  | sub
  | mul
  | div
deriving DecidableEq

instance {ε α : Type} [DecidableEq ε] [DecidableEq α] : DecidableEq (Except ε α) :=
  fun a b =>
    match a, b with
    | Except.error e1, Except.error e2 =>
      if h : e1 = e2 then Decidable.isTrue (by rw [h]) else Decidable.isFalse (by simp [h])
    | Except.error _, Except.ok _ => Decidable.isFalse (by simp)
    | Except.ok _, Except.error _ => Decidable.isFalse (by simp)
    | Except.ok a, Except.ok b =>
      if h : a = b then Decidable.isTrue (by rw [h]) else Decidable.isFalse (by simp [h])

/-- The source's module constant `OPS = ("+", "-", "*", "/")`. -/
def OPS : List Op := [Op.add, Op.sub, Op.mul, Op.div]

/-- String form of an operator, as used when rendering expressions. -/
def Op.str : Op → String
  | Op.add => "+"
  | Op.sub => "-"
  | Op.mul => "*"
  | Op.div => "/"

/-- Pass 1 of `eval_no_parens` (the while loop, lines 28-44): resolve `*`
and `/` from left to right.  The state is the accumulated value `v`
(`values[i]`) and the remaining `(operator, operand)` pairs.  A `*` or `/`
combines `v` with the next operand and stays at the same position; a `/`
whose right operand is zero aborts the whole pass (`return None`).  An
additive operator leaves `v` in place and the scan moves right, so the
result is `values[0]` followed by the surviving `(+ or -, value)` pairs. -/
def mulPass (v : ℚ) : List (Op × ℚ) → Option (ℚ × List (Op × ℚ))
  | [] => some (v, [])
  | (op, w) :: rest =>
    match op with
    | Op.mul => mulPass (v * w) rest
    | Op.div => if w = 0 then none else mulPass (v / w) rest
    | _ =>
      match mulPass w rest with
      | none => none
      | some (v2, tail) => some (v, (op, v2) :: tail)

/-- Pass 2 of `eval_no_parens` (the for loop, lines 47-54): apply the
surviving operators strictly left to right; `+` adds, anything else
subtracts (only `+` and `-` can survive pass 1). -/
def addPass (res : ℚ) : List (Op × ℚ) → ℚ
  | [] => res
  | (Op.add, b) :: rest => addPass (res + b) rest
  | (_, b) :: rest => addPass (res - b) rest

/-- `eval_no_parens(nums, ops)`: evaluate `n0 op0 n1 op1 ...` with standard
precedence and left-to-right association within the same precedence level,
over exact rationals.  `Except.error` models the `ValueError` raised on an
arity mismatch; `Except.ok none` models the `None` returned on empty input
or on division by zero. -/
def eval_no_parens (nums : List ℤ) (ops : List Op) : Except String (Option ℚ) :=
  match nums with
  | [] => Except.ok none
  | n :: rest =>
    if ops.length = rest.length then
      match mulPass (n : ℚ) (ops.zip (rest.map (fun m => (m : ℚ)))) with
      | none => Except.ok none
      | some (v0, tail) => Except.ok (some (addPass v0 tail))
    else Except.error "len(ops) must be len(nums)-1"

/-- The expression string built at lines 92-96: `str(nums[0])` followed by
`op ++ str(num)` for each zipped pair, all joined without separators. -/
def render (nums : List ℤ) (ops : List Op) : String :=
  match nums with
  | [] => ""
  | n :: rest =>
    toString n ++ String.join ((ops.zip rest).map (fun p => Op.str p.1 ++ toString p.2))

/-- `buckets[tv].append(expr)` on the `defaultdict(list)` later frozen by
`dict(buckets)`: appending to an existing target extends its list in
place, a new target goes to the end of the key order. -/
def insertBucket (B : List (ℤ × List String)) (t : ℤ) (s : String) :
    List (ℤ × List String) :=
  match B with
  | [] => [(t, [s])]
  | (t0, l) :: rest =>
    if t0 = t then (t0, l ++ [s]) :: rest else (t0, l) :: insertBucket rest t s

/-- The body of the inner enumeration loop (lines 86-97): evaluate the
candidate, skip it on division by zero or a non-integer value, skip values
outside `[target_lo, target_hi]`, otherwise append its rendering to the
bucket of its integer value.  `int(v)` under `v.denominator == 1` is
exactly `v.num`.  The arity error of `eval_no_parens` cannot occur here
because the enumerator always passes `k-1` operators with `k` operands. -/
def processCandidate (target_lo target_hi : ℤ) (B : List (ℤ × List String))
    (nums : List ℤ) (ops : List Op) : List (ℤ × List String) :=
  match eval_no_parens nums ops with
  | Except.ok (some v) =>
    if v.den = 1 then
      if target_lo ≤ v.num ∧ v.num ≤ target_hi then
        insertBucket B v.num (render nums ops)
      else B
    else B
  | _ => B

/-- `list(range(lo, hi + 1))`: the ascending integer pool, empty when
`hi < lo`. -/
def pool (lo hi : ℤ) : List ℤ :=
  (List.range (hi - lo + 1).toNat).map (fun i : ℕ => lo + (i : ℤ))

/-- All ways to pick one element out of a list, each paired with the
remaining elements in their original order. -/
def selections {α : Type} : List α → List (α × List α)
  | [] => []
  | x :: xs => (x, xs) :: (selections xs).map (fun p => (p.1, x :: p.2))

/-- `itertools.permutations(pool, k)`: all length-`k` ordered selections of
distinct positions, emitted in lexicographic order of positions — first
element in pool order, then recursively the permutations of the remaining
elements. -/
def kperms {α : Type} : Nat → List α → List (List α)
  | 0, _ => [[]]
  | Nat.succ k, l =>
    (selections l).flatMap (fun p => (kperms k p.2).map (fun t => p.1 :: t))

/-- `itertools.product(allowed_ops, repeat=m)`: all length-`m` operator
tuples, leftmost position varying slowest (odometer order). -/
def opTuples (allowed : List Op) : Nat → List (List Op)
  | 0 => [[]]
  | Nat.succ m => allowed.flatMap (fun o => (opTuples allowed m).map (fun t => o :: t))

/-- `enumerate_targets_for_k(k=.., lo=.., hi=.., target_lo=.., target_hi=..,
allowed_ops=..)` (lines 58-100): validate `k`, then fold every candidate
(permutation of the pool crossed with an operator tuple) into the bucket
map.  `Except.error` models the two `ValueError`s. -/
def enumerate_targets_for_k (k : Nat) (lo hi target_lo target_hi : ℤ)
    (allowed_ops : List Op) : Except String (List (ℤ × List String)) :=
  if k < 2 then Except.error "k must be >= 2"
  else
    let n_pool := pool lo hi
    if k > n_pool.length then Except.error "k cannot exceed the size of the number pool"
    else
      Except.ok ((kperms k n_pool).foldl
        (fun B nums =>
          (opTuples allowed_ops (k - 1)).foldl
            (fun B2 ops => processCandidate target_lo target_hi B2 nums ops) B)
        [])

/-- `buckets.get(t, [])`: the list stored for target `t`, empty when the
target is absent from the mapping. -/
def bucketsGet (B : List (ℤ × List String)) (t : ℤ) : List String :=
  match B.find? (fun p => p.1 == t) with
  | some p => p.2
  | none => []

/-- `write_buckets(buckets, out_dir, target_lo=.., target_hi=..)` (lines
103-115), with the filesystem sink abstracted to the association of the
artifacts it produces: for every `t` in `range(target_lo, target_hi + 1)`
one artifact is written, holding `buckets.get(t, [])`. -/
def write_buckets (B : List (ℤ × List String)) (target_lo target_hi : ℤ) :
    List (ℤ × List String) :=
  (pool target_lo target_hi).map (fun t => (t, bucketsGet B t))

/-- C1: the evaluator applies multiplicative operators before additive
ones: `evaluate([2,3,4],["+","*"])` returns exactly `14` (that is,
`2+(3*4)`), and `evaluate([2,3,4],["*","+"])` returns exactly `10` (that
is, `(2*3)+4`). -/
theorem C1_precedence :
    eval_no_parens [2, 3, 4] [Op.add, Op.mul] = Except.ok (some 14) ∧
    eval_no_parens [2, 3, 4] [Op.mul, Op.add] = Except.ok (some 10) := by
  constructor <;> norm_num [eval_no_parens, mulPass, addPass]

/-- C2: within one precedence level the evaluator associates strictly left
to right: `evaluate([8,4,2],["/","/"])` returns exactly `1` (that is,
`(8/4)/2`), and `evaluate([8,4,2],["-","-"])` returns exactly `2` (that
is, `(8-4)-2`). -/
theorem C2_left_to_right :
    eval_no_parens [8, 4, 2] [Op.div, Op.div] = Except.ok (some 1) ∧
    eval_no_parens [8, 4, 2] [Op.sub, Op.sub] = Except.ok (some 2) := by
  constructor <;> norm_num [eval_no_parens, mulPass, addPass]

/-- C3: arithmetic is exact rational arithmetic, so
`evaluate([1,3,3],["/","*"])` yields exactly the rational `1`, whose
reduced denominator is `1`; the caller's integrality test therefore
classifies the candidate as the integer `1` and stores it in bucket `1`
instead of rejecting it. -/
theorem C3_exact_rational :
    eval_no_parens [1, 3, 3] [Op.div, Op.mul] = Except.ok (some 1) ∧
    (1 : ℚ).den = 1 ∧ (1 : ℚ).num = 1 ∧
    processCandidate 1 99 [] [1, 3, 3] [Op.div, Op.mul] = [(1, ["1/3*3"])] := by
  refine ⟨by norm_num [eval_no_parens, mulPass, addPass], by norm_num, by norm_num, ?_⟩
  norm_num [processCandidate, eval_no_parens, mulPass, addPass]
  decide

/-- C4: a `/` whose right operand is currently zero makes the whole
multiplicative pass return no value at once, regardless of what follows;
an evaluation whose multiplicative pass fails returns `None` (here
`Except.ok none`); and the enumerator's loop body leaves the buckets
untouched — raising nothing — on any candidate whose evaluation returned
`None`. -/
theorem C4_div_zero_short_circuit :
    (∀ (v : ℚ) (tail : List (Op × ℚ)), mulPass v ((Op.div, 0) :: tail) = none) ∧
    (∀ (n : ℤ) (rest : List ℤ) (ops : List Op), ops.length = rest.length →
      mulPass (n : ℚ) (ops.zip (rest.map (fun m => (m : ℚ)))) = none →
      eval_no_parens (n :: rest) ops = Except.ok none) ∧
    (∀ (tlo thi : ℤ) (B : List (ℤ × List String)) (nums : List ℤ) (ops : List Op),
      eval_no_parens nums ops = Except.ok none →
      processCandidate tlo thi B nums ops = B) := by
  refine ⟨fun v tail => by simp [mulPass], ?_, ?_⟩
  · intro n rest ops h hm
    simp only [eval_no_parens, List.length_cons]
    rw [if_pos h, hm]
  · intro tlo thi B nums ops h
    simp only [processCandidate]
    rw [h]

/-- Witness for C4 at the candidate `1 / 0 * 3`: the zero divisor kills the
multiplicative pass immediately, the evaluation returns `None`, and the
enumerator's loop body keeps the buckets unchanged. -/
theorem C4_witness :
    mulPass 5 [(Op.div, 0), (Op.mul, 3)] = none ∧
    eval_no_parens [1, 0, 3] [Op.div, Op.mul] = Except.ok none ∧
    processCandidate 1 99 [(7, ["3+4"])] [1, 0, 3] [Op.div, Op.mul] = [(7, ["3+4"])] :=
  ⟨C4_div_zero_short_circuit.1 5 [(Op.mul, 3)],
   C4_div_zero_short_circuit.2.1 1 [0, 3] [Op.div, Op.mul] (by decide)
     (by norm_num [mulPass]),
   C4_div_zero_short_circuit.2.2 1 99 [(7, ["3+4"])] [1, 0, 3] [Op.div, Op.mul]
     (by norm_num [eval_no_parens, mulPass])⟩

/-- C7: `enumerate_targets_for_k` fails fast with a `ValueError` — and so
produces no mapping — whenever `k < 2`, or whenever `k` exceeds the pool
size `hi - lo + 1`. -/
theorem C7_invalid_k :
    (∀ (k : Nat) (lo hi tlo thi : ℤ) (allowed : List Op), k < 2 →
      enumerate_targets_for_k k lo hi tlo thi allowed =
        Except.error "k must be >= 2") ∧
    (∀ (k : Nat) (lo hi tlo thi : ℤ) (allowed : List Op),
      2 ≤ k → hi - lo + 1 < (k : ℤ) →
      enumerate_targets_for_k k lo hi tlo thi allowed =
        Except.error "k cannot exceed the size of the number pool") := by
  constructor
  · intro k lo hi tlo thi allowed h
    simp only [enumerate_targets_for_k]
    rw [if_pos h]
  · intro k lo hi tlo thi allowed h2 hk
    have hlen : (pool lo hi).length < k := by
      simp only [pool, List.length_map, List.length_range]
      omega
    simp only [enumerate_targets_for_k]
    rw [if_neg (by omega), if_pos hlen]

/-- Witness for C7: `k = 1` and `k = 10` on the default pool `[1,9]` both
fail with the corresponding message. -/
theorem C7_witness :
    enumerate_targets_for_k 1 1 9 1 99 OPS = Except.error "k must be >= 2" ∧
    enumerate_targets_for_k 10 1 9 1 99 OPS =
      Except.error "k cannot exceed the size of the number pool" :=
  ⟨C7_invalid_k.1 1 1 9 1 99 OPS (by decide),
   C7_invalid_k.2 10 1 9 1 99 OPS (by decide) (by decide)⟩

/-- C8: on a non-empty operand sequence, an operator sequence whose length
is not `len(nums) - 1` makes `eval_no_parens` raise (here return
`Except.error`), never a silent value. -/
theorem C8_arity_check (nums : List ℤ) (ops : List Op) (hne : nums ≠ [])
    (hlen : ops.length ≠ nums.length - 1) :
    eval_no_parens nums ops = Except.error "len(ops) must be len(nums)-1" := by
  cases nums with
  | nil => exact absurd rfl hne
  | cons n rest =>
    simp only [eval_no_parens]
    rw [if_neg]
    simpa using hlen

/-- Witness for C8: one operand with one operator is rejected. -/
theorem C8_witness :
    ([(1 : ℤ)] ≠ []) ∧ ([Op.add].length ≠ [(1 : ℤ)].length - 1) ∧
    eval_no_parens [1] [Op.add] = Except.error "len(ops) must be len(nums)-1" :=
  ⟨by decide, by decide, C8_arity_check [1] [Op.add] (by decide) (by decide)⟩

/-- C10: with an empty operand sequence `eval_no_parens` returns `None`
(`Except.ok none`) for every operator sequence, including non-empty ones:
the emptiness check at line 19 precedes and bypasses the arity check at
line 21. -/
theorem C10_empty_nums (ops : List Op) : eval_no_parens [] ops = Except.ok none := rfl

/-- Membership in the pool is exactly the closed interval `[lo, hi]`. -/
lemma mem_pool {lo hi t : ℤ} : t ∈ pool lo hi ↔ lo ≤ t ∧ t ≤ hi := by
  simp only [pool, List.mem_map, List.mem_range]
  constructor
  · rintro ⟨i, hlt, rfl⟩
    omega
  · rintro ⟨h1, h2⟩
    exact ⟨(t - lo).toNat, by omega, by omega⟩

/-- `foldl` keeps any invariant its step function keeps. -/
lemma foldl_invariant {α β : Type} (f : β → α → β) (P : β → Prop)
    (hf : ∀ b a, P b → P (f b a)) :
    ∀ (l : List α) (b : β), P b → P (l.foldl f b) := by
  intro l
  induction l with
  | nil => intro b hb; simpa using hb
  | cons x xs ih =>
    intro b hb
    rw [List.foldl_cons]
    exact ih (f b x) (hf b x hb)

/-- `insertBucket` never stores an empty expression list. -/
lemma insertBucket_ne_nil (B : List (ℤ × List String)) (t : ℤ) (s : String)
    (hB : ∀ p ∈ B, p.2 ≠ []) : ∀ p ∈ insertBucket B t s, p.2 ≠ [] := by
  induction B with
  | nil =>
    intro p hp
    simp only [insertBucket, List.mem_singleton] at hp
    subst hp
    simp
  | cons hd tl ih =>
    obtain ⟨t0, l⟩ := hd
    intro p hp
    simp only [insertBucket] at hp
    by_cases h : t0 = t
    · rw [if_pos h] at hp
      rcases List.mem_cons.mp hp with rfl | hmem
      · simp
      · exact hB p (List.mem_cons_of_mem _ hmem)
    · rw [if_neg h] at hp
      rcases List.mem_cons.mp hp with rfl | hmem
      · exact hB _ (List.mem_cons_self _ _)
      · exact ih (fun q hq => hB q (List.mem_cons_of_mem _ hq)) p hmem

/-- The enumerator's loop body never stores an empty expression list. -/
lemma processCandidate_ne_nil (tlo thi : ℤ) (B : List (ℤ × List String))
    (nums : List ℤ) (ops : List Op) (hB : ∀ p ∈ B, p.2 ≠ []) :
    ∀ p ∈ processCandidate tlo thi B nums ops, p.2 ≠ [] := by
  unfold processCandidate
  cases hev : eval_no_parens nums ops with
  | error e => exact hB
  | ok vo =>
    cases vo with
    | none => exact hB
    | some v =>
      show ∀ p ∈ (if v.den = 1 then
          if tlo ≤ v.num ∧ v.num ≤ thi then insertBucket B v.num (render nums ops)
          else B
        else B), p.2 ≠ []
      by_cases hden : v.den = 1
      · rw [if_pos hden]
        by_cases hrange : tlo ≤ v.num ∧ v.num ≤ thi
        · rw [if_pos hrange]
          exact insertBucket_ne_nil B v.num (render nums ops) hB
        · rw [if_neg hrange]; exact hB
      · rw [if_neg hden]; exact hB

/-- A bucket entry is sound when its target lies in the configured range and
every stored string is the rendering of a candidate that evaluates exactly
to the target. -/
def GoodEntry (tlo thi : ℤ) (p : ℤ × List String) : Prop :=
  tlo ≤ p.1 ∧ p.1 ≤ thi ∧
  ∀ s ∈ p.2, ∃ nums ops, s = render nums ops ∧
    eval_no_parens nums ops = Except.ok (some ((p.1 : ℚ)))

/-- `insertBucket` preserves bucket soundness when the inserted string is
itself sound for its in-range target. -/
lemma insertBucket_good {tlo thi : ℤ} (B : List (ℤ × List String)) (t : ℤ) (s : String)
    (hB : ∀ p ∈ B, GoodEntry tlo thi p) (h1 : tlo ≤ t) (h2 : t ≤ thi)
    (hs : ∃ nums ops, s = render nums ops ∧
      eval_no_parens nums ops = Except.ok (some ((t : ℚ)))) :
    ∀ p ∈ insertBucket B t s, GoodEntry tlo thi p := by
  induction B with
  | nil =>
    intro p hp
    simp only [insertBucket, List.mem_singleton] at hp
    subst hp
    refine ⟨h1, h2, ?_⟩
    intro x hx
    simp only [List.mem_singleton] at hx
    subst hx
    exact hs
  | cons hd tl ih =>
    obtain ⟨t0, l⟩ := hd
    intro p hp
    simp only [insertBucket] at hp
    by_cases h : t0 = t
    · rw [if_pos h] at hp
      rcases List.mem_cons.mp hp with rfl | hmem
      · subst h
        obtain ⟨g1, g2, g3⟩ := hB (t0, l) (List.mem_cons_self _ _)
        refine ⟨g1, g2, ?_⟩
        intro x hx
        rcases List.mem_append.mp hx with hx1 | hx2
        · exact g3 x hx1
        · simp only [List.mem_singleton] at hx2
          subst hx2
          exact hs
      · exact hB p (List.mem_cons_of_mem _ hmem)
    · rw [if_neg h] at hp
      rcases List.mem_cons.mp hp with rfl | hmem
      · exact hB _ (List.mem_cons_self _ _)
      · exact ih (fun q hq => hB q (List.mem_cons_of_mem _ hq)) p hmem

/-- The enumerator's loop body preserves bucket soundness: it only ever
appends the rendering of a candidate whose exact value is the integer of
an in-range bucket. -/
lemma processCandidate_good {tlo thi : ℤ} (B : List (ℤ × List String))
    (nums : List ℤ) (ops : List Op) (hB : ∀ p ∈ B, GoodEntry tlo thi p) :
    ∀ p ∈ processCandidate tlo thi B nums ops, GoodEntry tlo thi p := by
  unfold processCandidate
  cases hev : eval_no_parens nums ops with
  | error e => exact hB
  | ok vo =>
    cases vo with
    | none => exact hB
    | some v =>
      show ∀ p ∈ (if v.den = 1 then
          if tlo ≤ v.num ∧ v.num ≤ thi then insertBucket B v.num (render nums ops)
          else B
        else B), GoodEntry tlo thi p
      by_cases hden : v.den = 1
      · rw [if_pos hden]
        by_cases hrange : tlo ≤ v.num ∧ v.num ≤ thi
        · rw [if_pos hrange]
          exact insertBucket_good B v.num (render nums ops) hB hrange.1 hrange.2
            ⟨nums, ops, rfl, by rw [hev, Rat.coe_int_num_of_den_eq_one hden]⟩
        · rw [if_neg hrange]; exact hB
      · rw [if_neg hden]; exact hB

/-- A successful enumeration result satisfies an invariant when the loop
body preserves it, starting from the empty bucket map. -/
lemma enumerate_invariant (P : List (ℤ × List String) → Prop)
    (k : Nat) (lo hi tlo thi : ℤ) (allowed : List Op) (B : List (ℤ × List String))
    (hstep : ∀ b nums ops, P b → P (processCandidate tlo thi b nums ops))
    (hnil : P [])
    (hB : enumerate_targets_for_k k lo hi tlo thi allowed = Except.ok B) : P B := by
  simp only [enumerate_targets_for_k] at hB
  split_ifs at hB with h1 h2
  injection hB with h
  subst h
  refine foldl_invariant _ P ?_ _ _ hnil
  intro b nums hb
  exact foldl_invariant _ P (fun b2 ops hb2 => hstep b2 nums ops hb2) _ _ hb

/-- C6 counterexample: with `k=2`, pool `[1,2]`, operator `+` and target
range `[1,5]`, the only achievable target is `3`, and the mapping returned
by `enumerate_targets_for_k` has no entry for target `1` although `1` lies
in the range — empty targets are not materialized by the enumeration. -/
theorem C6_counterexample :
    enumerate_targets_for_k 2 1 2 1 5 [Op.add] = Except.ok [(3, ["1+2", "2+1"])] ∧
    (1 : ℤ) ≥ 1 ∧ (1 : ℤ) ≤ 5 ∧
    (1 : ℤ) ∉ ([(3, ["1+2", "2+1"])] : List (ℤ × List String)).map Prod.fst := by
  refine ⟨?_, by decide, by decide, by decide⟩
  norm_num [enumerate_targets_for_k, kperms, selections, opTuples,
    processCandidate, eval_no_parens, mulPass, addPass, pool, List.range_succ]
  decide

/-- C6 amended: the mapping returned by `enumerate_targets_for_k` holds
only targets with at least one expression; range materialization is done
by the sink `write_buckets`, whose output has an entry (possibly with an
empty expression list) for every integer in `[target_lo, target_hi]`. -/
theorem C6_sink_materializes_range :
    (∀ (B : List (ℤ × List String)) (tlo thi t : ℤ), tlo ≤ t → t ≤ thi →
      t ∈ (write_buckets B tlo thi).map Prod.fst) ∧
    (∀ (k : Nat) (lo hi tlo thi : ℤ) (allowed : List Op) (B : List (ℤ × List String)),
      enumerate_targets_for_k k lo hi tlo thi allowed = Except.ok B →
      ∀ p ∈ B, p.2 ≠ []) := by
  constructor
  · intro B tlo thi t h1 h2
    have hkeys : (write_buckets B tlo thi).map Prod.fst = pool tlo thi := by
      simp only [write_buckets, List.map_map]
      exact List.map_id _
    rw [hkeys]
    exact mem_pool.mpr ⟨h1, h2⟩
  · intro k lo hi tlo thi allowed B hB
    exact enumerate_invariant (fun b => ∀ p ∈ b, p.2 ≠ []) k lo hi tlo thi allowed B
      (fun b nums ops hb => processCandidate_ne_nil tlo thi b nums ops hb)
      (by simp) hB

/-- Witness for C6 amended: target `1` of range `[1,5]` is present in the
sink output even for empty buckets, and the bucket stored for target `3`
in a concrete enumeration is non-empty. -/
theorem C6_witness :
    (1 : ℤ) ∈ (write_buckets [] 1 5).map Prod.fst ∧
    (["1+2", "2+1"] : List String) ≠ [] :=
  ⟨C6_sink_materializes_range.1 [] 1 5 1 (by decide) (by decide),
   C6_sink_materializes_range.2 2 1 2 1 5 [Op.add] [(3, ["1+2", "2+1"])]
     (by norm_num [enumerate_targets_for_k, kperms, selections, opTuples,
        processCandidate, eval_no_parens, mulPass, addPass, pool, List.range_succ]
         decide)
     (3, ["1+2", "2+1"]) (by decide)⟩

/-- C9 counterexample: with the configurable target range `[-5,5]`, the
negative-valued candidate `1-2` (exact value `-1`) is stored in bucket
`-1`, so negative results are not excluded from every bucket in every
configuration. -/
theorem C9_counterexample :
    enumerate_targets_for_k 2 1 2 (-5) 5 [Op.sub] =
      Except.ok [(-1, ["1-2"]), (1, ["2-1"])] ∧
    eval_no_parens [1, 2] [Op.sub] = Except.ok (some (-1)) ∧
    (-1 : ℚ) < 0 ∧
    "1-2" ∈ bucketsGet [((-1 : ℤ), ["1-2"]), (1, ["2-1"])] (-1) := by
  refine ⟨?_, by norm_num [eval_no_parens, mulPass, addPass], by norm_num, by decide⟩
  norm_num [enumerate_targets_for_k, kperms, selections, opTuples,
    processCandidate, eval_no_parens, mulPass, addPass, pool, List.range_succ]
  decide

/-- C9 amended: division-by-zero and non-integer candidates never reach a
bucket and raise nothing; candidates are kept exactly when their value is
an integer inside `[target_lo, target_hi]` (so negative values are
excluded whenever `target_lo ≥ 0`, as in the default configuration):
every expression stored in bucket `t` is the rendering of a candidate
whose exact evaluation is the integer `t`, with
`target_lo ≤ t ≤ target_hi`. -/
theorem C9_bucket_soundness :
    ∀ (k : Nat) (lo hi tlo thi : ℤ) (allowed : List Op) (B : List (ℤ × List String)),
      enumerate_targets_for_k k lo hi tlo thi allowed = Except.ok B →
      ∀ p ∈ B, tlo ≤ p.1 ∧ p.1 ≤ thi ∧
        ∀ s ∈ p.2, ∃ nums ops, s = render nums ops ∧
          eval_no_parens nums ops = Except.ok (some ((p.1 : ℚ))) := by
  intro k lo hi tlo thi allowed B hB
  exact enumerate_invariant (fun b => ∀ p ∈ b, GoodEntry tlo thi p) k lo hi tlo thi
    allowed B (fun b nums ops hb => processCandidate_good b nums ops hb) (by simp) hB

/-- Witness for C9 amended, at the concrete enumeration with `k=2`, pool
`[1,2]`, operator `+`, range `[1,5]`: bucket `3` is in range and its entry
`"1+2"` comes from a candidate evaluating exactly to `3`. -/
theorem C9_witness :
    (1 : ℤ) ≤ 3 ∧ (3 : ℤ) ≤ 5 ∧
    ∃ nums ops, "1+2" = render nums ops ∧
      eval_no_parens nums ops = Except.ok (some (((3 : ℤ) : ℚ))) := by
  have H := C9_bucket_soundness 2 1 2 1 5 [Op.add] [(3, ["1+2", "2+1"])]
    (by norm_num [enumerate_targets_for_k, kperms, selections, opTuples,
        processCandidate, eval_no_parens, mulPass, addPass, pool, List.range_succ]
        decide)
    (3, ["1+2", "2+1"]) (by decide)
  exact ⟨H.1, H.2.1, H.2.2 "1+2" (by decide)⟩

/-- The picked elements of `selections l`, in order, are exactly `l`. -/
lemma selections_map_fst {α : Type} (l : List α) :
    (selections l).map Prod.fst = l := by
  induction l with
  | nil => rfl
  | cons x xs ih =>
    simp only [selections, List.map_cons, List.map_map]
    have h : (Prod.fst ∘ fun p : α × List α => (p.1, x :: p.2)) = Prod.fst := rfl
    rw [h, ih]

/-- Every selection picks an element of the list and leaves a sublist. -/
lemma selections_mem {α : Type} (l : List α) :
    ∀ p ∈ selections l, p.1 ∈ l ∧ List.Sublist p.2 l := by
  induction l with
  | nil => intro p hp; simp [selections] at hp
  | cons x xs ih =>
    intro p hp
    simp only [selections, List.mem_cons, List.mem_map] at hp
    rcases hp with rfl | ⟨q, hq, rfl⟩
    · exact ⟨List.mem_cons_self x xs, List.sublist_cons_self x xs⟩
    · obtain ⟨h1, h2⟩ := ih q hq
      exact ⟨List.mem_cons_of_mem x h1, h2.cons₂ x⟩

/-- On a duplicate-free list, a selection never leaves its picked element
among the remaining ones. -/
lemma selections_fst_not_mem {α : Type} (l : List α) (hl : l.Nodup) :
    ∀ p ∈ selections l, p.1 ∉ p.2 := by
  induction l with
  | nil => intro p hp; simp [selections] at hp
  | cons x xs ih =>
    intro p hp
    obtain ⟨hx, hxs⟩ := List.nodup_cons.mp hl
    simp only [selections, List.mem_cons, List.mem_map] at hp
    rcases hp with rfl | ⟨q, hq, rfl⟩
    · exact hx
    · intro hmem
      rcases List.mem_cons.mp hmem with h | h
      · exact hx (h ▸ (selections_mem xs q hq).1)
      · exact ih hxs q hq h

/-- Concatenating blocks of lists sharing a head is lexicographically
sorted when the heads are strictly increasing across blocks and each block
is lexicographically sorted. -/
lemma pairwise_lex_flatMap {α β : Type} (r : α → α → Prop) (hd : β → α)
    (blk : β → List (List α)) :
    ∀ (pairs : List β),
      List.Pairwise (fun p q => r (hd p) (hd q)) pairs →
      (∀ p ∈ pairs, List.Pairwise (List.Lex r) (blk p)) →
      List.Pairwise (List.Lex r)
        (pairs.flatMap (fun p => (blk p).map (fun t => hd p :: t))) := by
  intro pairs
  induction pairs with
  | nil => intro _ _; simp
  | cons p ps ih =>
    intro hfst hblk
    rw [List.flatMap_cons, List.pairwise_append]
    obtain ⟨hp1, hp2⟩ := List.pairwise_cons.mp hfst
    refine ⟨?_, ?_, ?_⟩
    · exact (hblk p (List.mem_cons_self _ _)).map _ (fun _ _ h => List.Lex.cons h)
    · exact ih hp2 (fun q hq => hblk q (List.mem_cons_of_mem _ hq))
    · intro a ha b hb
      obtain ⟨t1, _, rfl⟩ := List.mem_map.mp ha
      obtain ⟨q, hq, hb2⟩ := List.mem_flatMap.mp hb
      obtain ⟨t2, _, rfl⟩ := List.mem_map.mp hb2
      exact List.Lex.rel (hp1 q hq)

/-- `kperms` emits permutations in strictly increasing lexicographic order
whenever the base list is strictly sorted. -/
lemma kperms_pairwise_lex {α : Type} (r : α → α → Prop) :
    ∀ (k : Nat) (l : List α), l.Pairwise r →
      List.Pairwise (List.Lex r) (kperms k l) := by
  intro k
  induction k with
  | zero => intro l _; simp [kperms]
  | succ k ih =>
    intro l hl
    show List.Pairwise (List.Lex r)
      ((selections l).flatMap (fun p => (kperms k p.2).map (fun t => p.1 :: t)))
    refine pairwise_lex_flatMap r Prod.fst (fun p => kperms k p.2) (selections l) ?_ ?_
    · have h2 : ((selections l).map Prod.fst).Pairwise r := by
        rw [selections_map_fst]; exact hl
      exact (List.pairwise_map).mp h2
    · intro p hp
      exact ih p.2 (hl.sublist (selections_mem l p hp).2)

/-- Every list emitted by `kperms k l` on a duplicate-free `l` is a
`k`-permutation: length `k`, pairwise-distinct entries, all drawn from
`l`. -/
lemma kperms_mem {α : Type} :
    ∀ (k : Nat) (l : List α), l.Nodup → ∀ t ∈ kperms k l,
      t.length = k ∧ t.Nodup ∧ ∀ x ∈ t, x ∈ l := by
  intro k
  induction k with
  | zero =>
    intro l _ t ht
    simp only [kperms, List.mem_singleton] at ht
    subst ht
    simp
  | succ k ih =>
    intro l hl t ht
    have ht2 : t ∈ (selections l).flatMap
        (fun p => (kperms k p.2).map (fun u => p.1 :: u)) := ht
    obtain ⟨p, hp, ht3⟩ := List.mem_flatMap.mp ht2
    obtain ⟨u, hu, rfl⟩ := List.mem_map.mp ht3
    obtain ⟨hp1, hp2⟩ := selections_mem l p hp
    obtain ⟨hlen, hnd2, hmem⟩ := ih p.2 (hp2.nodup hl) u hu
    refine ⟨by simp [hlen], ?_, ?_⟩
    · rw [List.nodup_cons]
      exact ⟨fun hx => selections_fst_not_mem l hl p hp (hmem _ hx), hnd2⟩
    · intro x hx
      rcases List.mem_cons.mp hx with rfl | hx2
      · exact hp1
      · exact hp2.subset (hmem x hx2)

/-- `opTuples` emits operator tuples in strictly increasing lexicographic
order of any strict order the configured operator list is sorted by. -/
lemma opTuples_pairwise_lex (r : Op → Op → Prop) (allowed : List Op)
    (hall : allowed.Pairwise r) :
    ∀ m, List.Pairwise (List.Lex r) (opTuples allowed m) := by
  intro m
  induction m with
  | zero => simp [opTuples]
  | succ m ih =>
    show List.Pairwise (List.Lex r)
      (allowed.flatMap (fun o => (opTuples allowed m).map (fun t => o :: t)))
    exact pairwise_lex_flatMap r (fun o => o) (fun _ => opTuples allowed m) allowed
      hall (fun o _ => ih)

/-- The pool is strictly ascending. -/
lemma pool_pairwise_lt (lo hi : ℤ) : (pool lo hi).Pairwise (· < ·) :=
  (List.pairwise_lt_range _).map _ (fun a b hab => by omega)

/-- The pool has no duplicate. -/
lemma pool_nodup (lo hi : ℤ) : (pool lo hi).Nodup :=
  (pool_pairwise_lt lo hi).imp ne_of_lt

/-- C5: the enumeration is deterministic (a pure function of its
configuration), its outer loop ranges over the `k`-permutations of the
ascending pool in strictly increasing lexicographic order, and its inner
loop ranges over operator tuples in strictly increasing lexicographic
order of whatever order the configured operator list is sorted by. -/
theorem C5_determinism_order :
    (∀ (k : Nat) (lo hi tlo thi : ℤ) (allowed : List Op),
      enumerate_targets_for_k k lo hi tlo thi allowed =
        enumerate_targets_for_k k lo hi tlo thi allowed) ∧
    (∀ (k : Nat) (lo hi : ℤ),
      List.Pairwise (List.Lex (· < ·)) (kperms k (pool lo hi))) ∧
    (∀ (k : Nat) (lo hi : ℤ) (nums : List ℤ), nums ∈ kperms k (pool lo hi) →
      nums.length = k ∧ nums.Nodup ∧ ∀ x ∈ nums, x ∈ pool lo hi) ∧
    (∀ (r : Op → Op → Prop) (allowed : List Op) (m : Nat), allowed.Pairwise r →
      List.Pairwise (List.Lex r) (opTuples allowed m)) := by
  refine ⟨fun _ _ _ _ _ _ => rfl, ?_, ?_, ?_⟩
  · intro k lo hi
    exact kperms_pairwise_lex _ k _ (pool_pairwise_lt lo hi)
  · intro k lo hi nums h
    exact kperms_mem k _ (pool_nodup lo hi) nums h
  · intro r allowed m h
    exact opTuples_pairwise_lex r allowed h m

/-- Witness for C5: concrete instances — the canonical four-operator list
ordered by its own index order gives lexicographically sorted operator
pairs, the `2`-permutations of pool `[1,3]` are lexicographically sorted,
and `[2,1]` is one of them with length `2`. -/
theorem C5_witness :
    enumerate_targets_for_k 4 1 9 1 99 OPS = enumerate_targets_for_k 4 1 9 1 99 OPS ∧
    List.Pairwise (List.Lex (· < ·)) (kperms 2 (pool 1 3)) ∧
    ([2, 1] : List ℤ).length = 2 ∧
    List.Pairwise (List.Lex (fun a b => OPS.indexOf a < OPS.indexOf b)) (opTuples OPS 2) :=
  ⟨C5_determinism_order.1 4 1 9 1 99 OPS,
   C5_determinism_order.2.1 2 1 3,
   (C5_determinism_order.2.2.1 2 1 3 [2, 1] (by decide)).1,
   C5_determinism_order.2.2.2 _ OPS 2 (by decide)⟩
